import Mathlib

/-!
Verification of the marking subsystem and the sandboxed external entity
table of the `vusion-templates/v8` repository against its specification.

The development shallowly embeds the relevant C++ source:

* `src/src/sandbox/external-entity-table-inl.h` — the segmented,
  freelist-based `ExternalEntityTable` allocator (`AllocateEntry`,
  `AllocateEntryBelow`, `TryAllocateEntryFromFreelist`, `Extend`,
  `AllocateTableSegment`, `FreeTableSegment`, `Segment`).
* `src/src/heap/marking-visitor-inl.h` — the marking visitor
  (`MarkObject`, `VisitFixedArrayWithProgressBar`, `MakeOlder`,
  `VisitEphemeronHashTable`, `VisitJSWeakRef`).

Machine integers are modelled as `Nat` (with explicit saturation where
the source saturates).  The lock-free CAS loops of the source are
embedded by their sequential semantics: a compare-and-swap retry loop in
which every CAS succeeds, which is the behaviour of any single
uninterrupted call.
-/

namespace EET

/--
State of one `ExternalEntityTable` together with one `Space`, following
`src/src/sandbox/external-entity-table-inl.h`.

* `entries i` is the freelist payload of table entry `i`, i.e. the value
  written by `Entry::MakeFreelistEntry` and read back by
  `Entry::GetNextFreelistEntryIndex` (only meaningful while `i` is on
  the freelist).
* `next`/`length` are the two fields of the space's atomic
  `FreelistHead` (`freelist_head_`); the freelist is empty iff
  `length = 0`.
* `segments` is the space's `segments_` set, as the list of segment
  numbers (`Segment::number()`), most recently added first.
* `nextSegment` models the virtual address space: `AllocateTableSegment`
  hands out fresh segments, and `InitializeTable` has already taken
  segment 0 (committed read-only for the null entry), so the fresh
  segments handed to a space are `1, 2, 3, …` — matching the source's
  `DCHECK_NE(segment.number(), 0)` in `Extend`.

All indices are per the source: an entry index `i` lies in segment
`i / kEntriesPerSegment` (`Segment::Containing`).  The segment size
`kEntriesPerSegment` (a positive compile-time constant defined in the
not-included header `external-entity-table.h`) is the parameter `E`
below.
-/
structure EETState where
  entries : Nat → Nat
  next : Nat
  length : Nat
  segments : List Nat
  nextSegment : Nat

/-- `Segment::Containing(entry_index)`: the number of the segment holding
a given entry index (`entry_index / kEntriesPerSegment`). -/
def segmentContaining (E i : Nat) : Nat := i / E

/-- `Segment::first_entry()`: first entry index of segment `n`. -/
def segmentFirstEntry (E n : Nat) : Nat := n * E

/-- `Segment::last_entry()`: last entry index of segment `n`
(`first_entry() + kEntriesPerSegment - 1`). -/
def segmentLastEntry (E n : Nat) : Nat := n * E + (E - 1)

/-- `Space::Contains(index)`: membership of the segment containing
`index` in the space's segment set. -/
def contains (E : Nat) (s : EETState) (i : Nat) : Prop :=
  segmentContaining E i ∈ s.segments

instance (E : Nat) (s : EETState) (i : Nat) : Decidable (contains E s i) := by
  unfold contains; infer_instance

/-- `Entry::MakeFreelistEntry(next)`: store a freelist link into entry
`i` of the table. -/
def makeFreelistEntry (entries : Nat → Nat) (i v : Nat) : Nat → Nat :=
  fun j => if j = i then v else entries j

/-- The loop `for (i = first; i < last; i++) at(i).MakeFreelistEntry(i + 1)`
of `Extend`, unrolled as a recursion on the iteration count `k`
(iteration `k` writes entry `first + k`). -/
def writeLinks (entries : Nat → Nat) (first : Nat) : Nat → (Nat → Nat)
  | 0 => entries
  | k + 1 => makeFreelistEntry (writeLinks entries first k) (first + k) (first + k + 1)

/-- `ExternalEntityTable::Extend(space)`: allocate a fresh segment
(`AllocateTableSegment`), add it to the space's segment set, link its
entries `first → first+1 → … → last → 0`, and publish the freelist head
`(first, last - first + 1)`. -/
def extend (E : Nat) (s : EETState) : EETState :=
  let seg := s.nextSegment
  let first := segmentFirstEntry E seg
  let last := segmentLastEntry E seg
  { entries := makeFreelistEntry (writeLinks s.entries first (E - 1)) last 0
    next := first
    length := last - first + 1
    segments := seg :: s.segments
    nextSegment := s.nextSegment + 1 }

/-- `ExternalEntityTable::AllocateEntry(space)`, sequential semantics of
the allocation loop: if the freelist head is empty, `Extend` the space
(the mutexed re-check collapses in an uninterrupted call); then
`TryAllocateEntryFromFreelist` pops the head — the CAS installs
`(entries[next], length - 1)` — and the popped `freelist.next()` is
returned. -/
def allocateEntry (E : Nat) (s : EETState) : Nat × EETState :=
  let s1 := if s.length = 0 then extend E s else s
  (s1.next, { s1 with next := s1.entries s1.next, length := s1.length - 1 })

/-- `ExternalEntityTable::AllocateEntryBelow(space, threshold_index)`,
sequential semantics: return the sentinel 0 if the freelist is empty or
its head's next index is at or above the threshold; otherwise pop the
head exactly as `AllocateEntry` does.  `Extend` is never invoked. -/
def allocateEntryBelow (s : EETState) (threshold : Nat) : Nat × EETState :=
  if s.length = 0 ∨ threshold ≤ s.next then (0, s)
  else (s.next, { s with next := s.entries s.next, length := s.length - 1 })

/-- The state of a space right after `InitializeTable` +
`InitializeSpace`: no segments, empty freelist, and segment 0 already
taken by the table itself (the read-only null-entry segment). -/
def initialState : EETState :=
  { entries := fun _ => 0, next := 0, length := 0, segments := [], nextSegment := 1 }

/-- `TearDownSpace` hands exactly the space's segments to
`FreeTableSegment`. -/
def tearDownSpaceSegments (s : EETState) : List Nat := s.segments

/-- One allocator operation on a space. -/
inductive Op where
  | alloc : Op
  | allocBelow : Nat → Op
deriving DecidableEq

/-- Apply one allocator operation. -/
def applyOp (E : Nat) : Op → EETState → Nat × EETState
  | .alloc, s => allocateEntry E s
  | .allocBelow t, s => allocateEntryBelow s t

/-- Run a list of allocator operations, collecting each operation's
return value in order. -/
def runOps (E : Nat) : List Op → EETState → List (Op × Nat) × EETState
  | [], s => ([], s)
  | op :: rest, s =>
    let r := applyOp E op s
    let rs := runOps E rest r.2
    ((op, r.1) :: rs.1, rs.2)

/-- Run `n` consecutive `AllocateEntry` calls, collecting the returned
indices in order. -/
def allocSeq (E : Nat) : Nat → EETState → List Nat × EETState
  | 0, s => ([], s)
  | n + 1, s =>
    let r := allocateEntry E s
    let rs := allocSeq E n r.2
    (r.1 :: rs.1, rs.2)

/-- The freelist rooted at `n` consists exactly of the indices `l`,
threaded through `entries` and terminated by 0. -/
def Chain (entries : Nat → Nat) : Nat → List Nat → Prop
  | n, [] => n = 0
  | n, x :: xs => n = x ∧ Chain entries (entries x) xs

/-- Well-formedness invariant of a space state, with the freelist
contents `freel` and the already-allocated indices `alloc` as ghost
lists. -/
structure Inv (E : Nat) (s : EETState) (freel alloc : List Nat) : Prop where
  chain : Chain s.entries s.next freel
  len : s.length = freel.length
  nodupF : freel.Nodup
  nzF : ∀ x ∈ freel, x ≠ 0
  segF : ∀ x ∈ freel, segmentContaining E x ∈ s.segments
  nodupA : alloc.Nodup
  nzA : ∀ x ∈ alloc, x ≠ 0
  segA : ∀ x ∈ alloc, segmentContaining E x ∈ s.segments
  disj : ∀ x ∈ alloc, x ∉ freel
  segNZ : ∀ g ∈ s.segments, g ≠ 0
  segLt : ∀ g ∈ s.segments, g < s.nextSegment
  posSeg : 0 < s.nextSegment

/-- A concrete space state used to exercise `allocateEntryBelow`:
segment size 2, segments 1 and 2 owned, freelist `5 → 2 → 0`
(head index 5, length 2), one deeper entry (2) below small thresholds. -/
def exampleSpaceState : EETState :=
  { entries := fun i => if i = 5 then 2 else 0
    next := 5
    length := 2
    segments := [2, 1]
    nextSegment := 3 }

end EET

namespace PB

/--
Result of one call to
`MarkingVisitorBase::VisitFixedArrayWithProgressBar` from
`src/src/heap/marking-visitor-inl.h`:

* `headerVisited`: whether `VisitMapPointer` ran (the observed cursor
  was 0);
* `slotStart`/`slotEnd`: the slot range handed to `VisitPointers`
  (empty — both equal — when `start < end` fails, in which case no
  visit, no cursor update and no re-push happen);
* `newCursor`: the progress-bar value after the call;
* `repushed`: whether the array was pushed back onto the marking
  worklist;
* `ret`: the returned `end - start` (a C++ `int`).
-/
structure StepOut where
  headerVisited : Bool
  slotStart : Nat
  slotEnd : Nat
  newCursor : Nat
  repushed : Bool
  ret : Int
deriving DecidableEq

/-- `ProgressBar::TrySetNewValue(old_value, new_value)`: compare-and-swap
on the progress-bar cell. -/
def trySetNewValue (cell expected newValue : Nat) : Bool × Nat :=
  if cell = expected then (true, newValue) else (false, cell)

/--
One call of `VisitFixedArrayWithProgressBar` on an array of byte size
`S`, with scanning chunk `chunk` (`kProgressBarScanningChunk`), header
offset `kSO` (`FixedArray::BodyDescriptor::kStartOffset`, a positive
compile-time constant from the not-included object-layout headers), and
progress-bar value `cursor`.  Sequential semantics: the observed
`progress_bar.Value()` is the stored cell, so the `TrySetNewValue` CAS
succeeds (the source `CHECK`s this).
-/
def step (S chunk kSO cursor : Nat) : StepOut :=
  let current := cursor
  let start0 := current
  let start := if start0 = 0 then kSO else start0
  let e := min S (start + chunk)
  if start < e then
    let cas := trySetNewValue cursor current e
    { headerVisited := start0 = 0
      slotStart := start
      slotEnd := e
      newCursor := cas.2
      repushed := e < S
      ret := (e : Int) - (start : Int) }
  else
    { headerVisited := start0 = 0
      slotStart := start
      slotEnd := start
      newCursor := cursor
      repushed := false
      ret := (e : Int) - (start : Int) }

/-- The byte ranges visited by one call: the header `[0, kSO)` when the
map pointer was visited, then the slot range when non-empty. -/
def stepRanges (kSO : Nat) (o : StepOut) : List (Nat × Nat) :=
  (if o.headerVisited then [(0, kSO)] else []) ++
    (if o.slotStart < o.slotEnd then [(o.slotStart, o.slotEnd)] else [])

/-- All byte ranges visited across the incremental increments: run one
call, and if the array was re-pushed onto the worklist, continue from the
new cursor.  `fuel` bounds the number of increments. -/
def run (S chunk kSO : Nat) : Nat → Nat → List (Nat × Nat)
  | 0, _ => []
  | fuel + 1, cursor =>
    let o := step S chunk kSO cursor
    stepRanges kSO o ++ (if o.repushed then run S chunk kSO fuel o.newCursor else [])

/-- `Tiles S a rs`: the ranges `rs` are consecutive, non-empty, start at
`a` and end exactly at `S` — i.e. their union is `[a, S)` with no
overlap and no gaps. -/
def Tiles (S : Nat) : Nat → List (Nat × Nat) → Prop
  | a, [] => a = S
  | a, r :: rs => r.1 = a ∧ a < r.2 ∧ Tiles S r.2 rs

end PB

namespace MV

/--
Marking state plus worklists seen by
`MarkingVisitorBase::MarkObject` (`src/src/heap/marking-visitor-inl.h`).
Heap objects are identified by `Nat`.  `worklist` is the log of pushes
onto `local_marking_worklists_` (most recent first), `retainers` the log
of `heap_->AddRetainer(host, object)` calls.
-/
structure MState where
  marked : List Nat
  worklist : List Nat
  retainers : List (Nat × Nat)

/-- `MarkingState::TryMark(object)`: atomic test-and-set of the mark
bit — returns true exactly for the first marker. -/
def tryMark (s : MState) (o : Nat) : Bool × MState :=
  if o ∈ s.marked then (false, s) else (true, { s with marked := o :: s.marked })

/-- `MarkingVisitorBase::MarkObject(host, object)`: `TryMark` the
object; on first-time success push it onto the marking worklist and,
when retaining-path tracing is enabled, record the retainer edge. -/
def markObject (retainingPathTracing : Bool) (s : MState) (host obj : Nat) : MState :=
  let r := tryMark s obj
  if r.1 then
    { r.2 with
      worklist := obj :: r.2.worklist
      retainers := if retainingPathTracing then (host, obj) :: r.2.retainers else r.2.retainers }
  else r.2

/-- Run a sequence of `MarkObject(host, obj)` calls. -/
def runMarks (retainingPathTracing : Bool) : List (Nat × Nat) → MState → MState
  | [], s => s
  | c :: rest, s => runMarks retainingPathTracing rest (markObject retainingPathTracing s c.1 c.2)

end MV

namespace EPH

/-- A tagged value as tested by `Object::IsHeapObject()`: either a heap
object (identified by `Nat`) or a non-heap value (a Smi). -/
inductive Obj where
  | heap : Nat → Obj
  | nonheap : Obj
deriving DecidableEq

/-- Observable actions of
`MarkingVisitorBase::VisitEphemeronHashTable`, in program order:
pushing the table onto `ephemeron_hash_tables_local`, recording the key
slot of entry `i`, strongly visiting the value slot of entry `i`
(`VisitPointer`), recording the value slot of entry `i`
(`RecordSlot` on the value in the deferred branch), and pushing a
discovered `Ephemeron{key, value}` pair. -/
inductive Ev where
  | pushTable : Ev
  | recordKey : Nat → Nat → Ev
  | visitValueStrong : Nat → Ev
  | recordValue : Nat → Nat → Ev
  | pushEphemeron : Nat → Nat → Ev
deriving DecidableEq

/--
The body of `VisitEphemeronHashTable`'s entry loop for entry `i` with
key `k` and value `v`, over the marking-state predicates
`readOnly` (`InReadOnlySpace`), `marked` (`IsMarked`; `IsUnmarked` is
its negation) and `shouldMark` (`ShouldMarkObject`):
record the key slot; if the key is read-only or marked, visit the value
slot strongly; otherwise, if the value is a heap object, record the
value slot and — if the value should be marked and is unmarked — push
the discovered ephemeron pair.
-/
def entryEvents (readOnly marked shouldMark : Nat → Bool) (i k : Nat) (v : Obj) : List Ev :=
  Ev.recordKey i k ::
    (if readOnly k || marked k then [Ev.visitValueStrong i]
     else
       match v with
       | .heap vid =>
         Ev.recordValue i vid ::
           (if !shouldMark vid then []
            else if !marked vid then [Ev.pushEphemeron k vid] else [])
       | .nonheap => [])

/-- The table-entry index an event belongs to (`none` for the
per-invocation table push and for ephemeron pushes, which carry the
key/value pair rather than the entry index). -/
def evIndex : Ev → Option Nat
  | .pushTable => none
  | .recordKey i _ => some i
  | .visitValueStrong i => some i
  | .recordValue i _ => some i
  | .pushEphemeron _ _ => none

/-- The entry loop `for (InternalIndex i : table.IterateEntries())`,
with `i` the running entry index. -/
def visitEntries (readOnly marked shouldMark : Nat → Bool) : Nat → List (Nat × Obj) → List Ev
  | _, [] => []
  | i, (k, v) :: rest =>
    entryEvents readOnly marked shouldMark i k v ++
      visitEntries readOnly marked shouldMark (i + 1) rest

/-- `MarkingVisitorBase::VisitEphemeronHashTable`: push the table onto
the ephemeron-hash-tables worklist, then process every entry in order. -/
def visitEphemeronHashTable (readOnly marked shouldMark : Nat → Bool)
    (tbl : List (Nat × Obj)) : List Ev :=
  Ev.pushTable :: visitEntries readOnly marked shouldMark 0 tbl

/-- A concrete marking state for exercising the ephemeron visitor:
nothing is read-only. -/
def exampleRo : Nat → Bool := fun _ => false

/-- A concrete marking state: only object 1 is marked. -/
def exampleMarked : Nat → Bool := fun k => k == 1

/-- A concrete marking state: every object should be marked. -/
def exampleShould : Nat → Bool := fun _ => true

/-- A concrete ephemeron hash table: a marked key, an unmarked key with
a heap-object value, and an unmarked key with a Smi value. -/
def exampleTable : List (Nat × Obj) :=
  [(1, Obj.heap 10), (2, Obj.heap 20), (3, Obj.nonheap)]

end EPH

namespace WR

/-- Observable result of `MarkingVisitorBase::VisitJSWeakRef`:
the returned size, the targets recorded via `RecordSlot` on the
`kTargetOffset` slot, and whether the weak ref was pushed onto
`js_weak_refs_local`. -/
structure WROut where
  ret : Nat
  recordedTargets : List Nat
  pushedWeakRef : Bool
deriving DecidableEq

/--
`MarkingVisitorBase::VisitJSWeakRef(map, weak_ref)`
(`src/src/heap/marking-visitor-inl.h`): `subclassSize` is the result of
the `VisitJSObjectSubclass` call (an external collaborator), `target`
the value of `weak_ref.target()`.  If the subclass visit returned 0,
return 0 immediately; otherwise, when the target is a heap object that
is read-only or marked, record the target slot, and when it is neither,
push the weak ref onto the js-weak-refs worklist.
-/
def visitJSWeakRef (readOnly marked : Nat → Bool) (subclassSize : Nat) (target : EPH.Obj) :
    WROut :=
  if subclassSize = 0 then { ret := 0, recordedTargets := [], pushedWeakRef := false }
  else
    match target with
    | .heap t =>
      if readOnly t || marked t then
        { ret := subclassSize, recordedTargets := [t], pushedWeakRef := false }
      else
        { ret := subclassSize, recordedTargets := [], pushedWeakRef := true }
    | .nonheap => { ret := subclassSize, recordedTargets := [], pushedWeakRef := false }

end WR

namespace SFI

/-- The three mutually exclusive code-flushing staleness policies of
`MarkingVisitorBase::MakeOlder` / `IsOld`, selected by the
configuration flags `v8_flags.flush_code_based_on_time`,
`v8_flags.flush_code_based_on_tab_visibility`, and neither (the pure
age-counter default). -/
inductive FlushPolicy where
  | timeBased : FlushPolicy
  | tabVisibility : FlushPolicy
  | ageCounter : FlushPolicy
deriving DecidableEq

/-- `SaturateAdd` on the 16-bit `age` field: unsigned saturating
addition capped at `2^16 - 1`. -/
def saturateAdd16 (a b : Nat) : Nat := min (a + b) 65535

/--
`MarkingVisitorBase::MakeOlder(sfi)` (`src/src/heap/marking-visitor-inl.h`),
as the new age value it installs, in sequential semantics (the
`CompareExchangeAge` retry loop of the time-based branch and the single
`CompareExchangeAge` of the age-counter branch succeed):

* time-based policy: a CAS-retry loop installing 1 when the current age
  is exactly 0, and otherwise the saturating 16-bit sum of the age and
  `code_flushing_increase_` (`increase`);
* tab-visibility policy: no increment at all;
* pure age-counter policy: one CAS installing `age + 1`, attempted only
  while the age is strictly below `v8_flags.bytecode_old_age`
  (`oldAge`).
-/
def makeOlder (policy : FlushPolicy) (increase oldAge age : Nat) : Nat :=
  match policy with
  | .timeBased => if age = 0 then 1 else saturateAdd16 age increase
  | .tabVisibility => age
  | .ageCounter => if age < oldAge then age + 1 else age

end SFI

namespace EET

theorem inv_initial (E : Nat) : Inv E initialState [] [] := by
  refine ⟨?_, rfl, List.nodup_nil, ?_, ?_, List.nodup_nil, ?_, ?_, ?_, ?_, ?_, Nat.one_pos⟩ <;>
    simp [initialState, Chain]

theorem writeLinks_at (entries : Nat → Nat) (first : Nat) :
    ∀ k j, j < k → writeLinks entries first k (first + j) = first + j + 1 := by
  intro k
  induction k with
  | zero => intro j hj; omega
  | succ k ih =>
    intro j hj
    by_cases hjk : j = k
    · subst hjk
      simp [writeLinks, makeFreelistEntry]
    · have hj' : j < k := by omega
      have hne : first + j ≠ first + k := by omega
      simp only [writeLinks, makeFreelistEntry, if_neg hne]
      exact ih j hj'

theorem chain_links (entries : Nat → Nat) :
    ∀ (k a : Nat), 0 < k →
      (∀ m, m + 1 < k → entries (a + m) = a + m + 1) →
      entries (a + (k - 1)) = 0 →
      Chain entries a (List.range' a k) := by
  intro k
  induction k with
  | zero => intro a h; omega
  | succ k ih =>
    intro a _ hlinks hlast
    show Chain entries a (a :: List.range' (a + 1) k)
    refine ⟨rfl, ?_⟩
    cases k with
    | zero =>
      show entries a = 0
      simpa using hlast
    | succ k' =>
      have ha : entries a = a + 1 := by
        have := hlinks 0 (by omega)
        simpa using this
      rw [ha]
      refine ih (a + 1) (Nat.succ_pos _) ?_ ?_
      · intro m hm
        have := hlinks (m + 1) (by omega)
        have harith : a + (m + 1) = a + 1 + m := by omega
        rw [harith] at this
        omega
      · have harith : a + (k' + 1 + 1 - 1) = a + 1 + (k' + 1 - 1) := by omega
        rw [← harith]
        exact hlast

theorem segmentContaining_of_range (E : Nat) (_hE : 0 < E) (g x : Nat)
    (hx : x ∈ List.range' (segmentFirstEntry E g) E) : segmentContaining E x = g := by
  rw [List.mem_range'_1] at hx
  unfold segmentFirstEntry at hx
  unfold segmentContaining
  exact Nat.div_eq_of_lt_le hx.1 (by rw [Nat.succ_mul]; omega)

theorem inv_extend (E : Nat) (hE : 0 < E) (s : EETState) (alloc : List Nat)
    (h : Inv E s [] alloc) :
    Inv E (extend E s) (List.range' (segmentFirstEntry E s.nextSegment) E) alloc := by
  set seg := s.nextSegment with hseg
  set first := segmentFirstEntry E seg with hfirst
  set last := segmentLastEntry E seg with hlast
  have hfl : last = first + (E - 1) := by
    simp [hfirst, hlast, segmentFirstEntry, segmentLastEntry]
  have hmem : ∀ x ∈ List.range' first E, first ≤ x ∧ x < first + E := by
    intro x hx; exact (List.mem_range'_1).1 hx
  have hsegpos : 0 < seg := h.posSeg
  have hfirstpos : 0 < first := by
    have : E ≤ seg * E := Nat.le_mul_of_pos_left E hsegpos
    simp only [hfirst, segmentFirstEntry]
    omega
  refine ⟨?_, ?_, List.nodup_range' first E 1 Nat.one_pos, ?_, ?_, h.nodupA, h.nzA, ?_, ?_, ?_, ?_, ?_⟩
  · -- chain
    show Chain _ first _
    refine chain_links _ E first hE ?_ ?_
    · intro m hm
      show makeFreelistEntry (writeLinks s.entries first (E - 1)) last 0 (first + m) = _
      have hne : first + m ≠ last := by omega
      simp only [makeFreelistEntry, if_neg hne]
      exact writeLinks_at s.entries first (E - 1) m (by omega)
    · show makeFreelistEntry (writeLinks s.entries first (E - 1)) last 0 (first + (E - 1)) = 0
      simp [makeFreelistEntry, ← hfl]
  · -- len
    show last - first + 1 = (List.range' first E).length
    rw [List.length_range']
    omega
  · -- nzF
    intro x hx
    have := hmem x hx
    omega
  · -- segF
    intro x hx
    have := segmentContaining_of_range E hE seg x hx
    show _ ∈ seg :: s.segments
    rw [this]; exact List.mem_cons_self _ _
  · -- segA
    intro x hx
    exact List.mem_cons_of_mem _ (h.segA x hx)
  · -- disj
    intro x hx hmemx
    have h1 : segmentContaining E x = seg := segmentContaining_of_range E hE seg x hmemx
    have h2 : segmentContaining E x ∈ s.segments := h.segA x hx
    have h3 : segmentContaining E x < seg := h.segLt _ h2
    omega
  · -- segNZ
    intro g hg
    rcases List.mem_cons.1 hg with hg | hg
    · omega
    · exact h.segNZ g hg
  · -- segLt
    intro g hg
    show g < seg + 1
    rcases List.mem_cons.1 hg with hg | hg
    · omega
    · have := h.segLt g hg; omega
  · -- posSeg
    show 0 < seg + 1
    omega

theorem inv_pop (E : Nat) (s : EETState) (x : Nat) (rest alloc : List Nat)
    (h : Inv E s (x :: rest) alloc) :
    s.next = x ∧
      Inv E { s with next := s.entries s.next, length := s.length - 1 } rest (x :: alloc) := by
  obtain ⟨hx, hchain⟩ := h.chain
  subst hx
  have hxnotrest : s.next ∉ rest := (List.nodup_cons.1 h.nodupF).1
  have hxnotalloc : s.next ∉ alloc := fun hmem => h.disj _ hmem (List.mem_cons_self _ _)
  refine ⟨rfl, ?_, ?_, (List.nodup_cons.1 h.nodupF).2, ?_, ?_, ?_, ?_, ?_, ?_, h.segNZ, h.segLt, h.posSeg⟩
  · exact hchain
  · show s.length - 1 = rest.length
    have := h.len
    simp only [List.length_cons] at this
    omega
  · intro y hy; exact h.nzF y (List.mem_cons_of_mem _ hy)
  · intro y hy; exact h.segF y (List.mem_cons_of_mem _ hy)
  · exact List.nodup_cons.2 ⟨hxnotalloc, h.nodupA⟩
  · intro y hy
    rcases List.mem_cons.1 hy with hy | hy
    · subst hy; exact h.nzF _ (List.mem_cons_self _ _)
    · exact h.nzA y hy
  · intro y hy
    rcases List.mem_cons.1 hy with hy | hy
    · subst hy; exact h.segF _ (List.mem_cons_self _ _)
    · exact h.segA y hy
  · intro y hy
    rcases List.mem_cons.1 hy with hy | hy
    · subst hy; exact hxnotrest
    · intro hmem
      exact h.disj y hy (List.mem_cons_of_mem _ hmem)

theorem inv_allocateEntry (E : Nat) (hE : 0 < E) (s : EETState) (freel alloc : List Nat)
    (h : Inv E s freel alloc) :
    ∃ freel', Inv E (allocateEntry E s).2 freel' ((allocateEntry E s).1 :: alloc) := by
  cases freel with
  | nil =>
    obtain ⟨E', rfl⟩ : ∃ E', E = E' + 1 := ⟨E - 1, by omega⟩
    have hlen : s.length = 0 := by simpa using h.len
    have hx := inv_extend (E' + 1) hE s alloc h
    have hrange : List.range' (segmentFirstEntry (E' + 1) s.nextSegment) (E' + 1) =
        segmentFirstEntry (E' + 1) s.nextSegment ::
          List.range' (segmentFirstEntry (E' + 1) s.nextSegment + 1) E' := rfl
    rw [hrange] at hx
    obtain ⟨hnext, hinv⟩ := inv_pop (E' + 1) (extend (E' + 1) s) _ _ alloc hx
    refine ⟨List.range' (segmentFirstEntry (E' + 1) s.nextSegment + 1) E', ?_⟩
    simp only [allocateEntry, hlen, ite_true]
    rw [hnext] at hinv ⊢
    exact hinv
  | cons x rest =>
    have hlen : s.length ≠ 0 := by
      have := h.len; simp only [List.length_cons] at this; omega
    obtain ⟨hnext, hinv⟩ := inv_pop E s x rest alloc h
    refine ⟨rest, ?_⟩
    simp only [allocateEntry, if_neg hlen]
    rw [hnext] at hinv ⊢
    exact hinv

theorem inv_allocateEntryBelow (E : Nat) (s : EETState) (freel alloc : List Nat) (T : Nat)
    (h : Inv E s freel alloc) :
    allocateEntryBelow s T = (0, s) ∨
      ∃ x rest, freel = x :: rest ∧ (allocateEntryBelow s T).1 = x ∧
        Inv E (allocateEntryBelow s T).2 rest (x :: alloc) := by
  by_cases hc : s.length = 0 ∨ T ≤ s.next
  · left; simp [allocateEntryBelow, hc]
  · right
    push_neg at hc
    cases freel with
    | nil => exact absurd (by simpa using h.len) hc.1
    | cons x rest =>
      obtain ⟨hnext, hinv⟩ := inv_pop E s x rest alloc h
      refine ⟨x, rest, rfl, ?_, ?_⟩ <;>
        simp only [allocateEntryBelow, if_neg (by omega : ¬(s.length = 0 ∨ T ≤ s.next))]
      · exact hnext
      · exact hinv

theorem inv_allocSeq (E : Nat) (hE : 0 < E) :
    ∀ (n : Nat) (s : EETState) (freel alloc : List Nat), Inv E s freel alloc →
      ∃ freel', Inv E (allocSeq E n s).2 freel' ((allocSeq E n s).1.reverse ++ alloc) := by
  intro n
  induction n with
  | zero =>
    intro s freel alloc h
    exact ⟨freel, by simpa [allocSeq] using h⟩
  | succ n ih =>
    intro s freel alloc h
    obtain ⟨freel1, h1⟩ := inv_allocateEntry E hE s freel alloc h
    obtain ⟨freel2, h2⟩ := ih (allocateEntry E s).2 freel1 _ h1
    refine ⟨freel2, ?_⟩
    simp only [allocSeq, List.reverse_cons, List.append_assoc, List.cons_append,
      List.nil_append]
    exact h2

theorem inv_runOps (E : Nat) (hE : 0 < E) :
    ∀ (ops : List Op) (s : EETState) (freel alloc : List Nat), Inv E s freel alloc →
      ∃ freel' alloc', Inv E (runOps E ops s).2 freel' alloc' ∧
        (∀ a ∈ alloc, a ∈ alloc') ∧
        (∀ p ∈ (runOps E ops s).1, p.1 = Op.alloc → p.2 ∈ alloc') := by
  intro ops
  induction ops with
  | nil =>
    intro s freel alloc h
    exact ⟨freel, alloc, by simpa [runOps] using h, fun a ha => ha, by simp [runOps]⟩
  | cons op rest ih =>
    intro s freel alloc h
    cases op with
    | alloc =>
      obtain ⟨freel1, h1⟩ := inv_allocateEntry E hE s freel alloc h
      obtain ⟨freel', alloc', h2, hmono, h3⟩ := ih (allocateEntry E s).2 freel1 _ h1
      refine ⟨freel', alloc', ?_, ?_, ?_⟩
      · simpa [runOps, applyOp] using h2
      · intro a ha
        exact hmono a (List.mem_cons_of_mem _ ha)
      · intro p hp hpa
        simp only [runOps, applyOp, List.mem_cons] at hp
        rcases hp with hp | hp
        · subst hp
          exact hmono _ (List.mem_cons_self _ _)
        · exact h3 p hp hpa
    | allocBelow t =>
      rcases inv_allocateEntryBelow E s freel alloc t h with hfail | ⟨x, r, _, hx, hinv⟩
      · obtain ⟨freel', alloc', h2, hmono, h3⟩ := ih s freel alloc h
        refine ⟨freel', alloc', ?_, hmono, ?_⟩
        · simpa [runOps, applyOp, hfail] using h2
        · intro p hp hpa
          simp only [runOps, applyOp, hfail, List.mem_cons] at hp
          rcases hp with hp | hp
          · subst hp; simp at hpa
          · exact h3 p hp hpa
      · obtain ⟨freel', alloc', h2, hmono, h3⟩ := ih (allocateEntryBelow s t).2 r _ hinv
        refine ⟨freel', alloc', ?_, ?_, ?_⟩
        · simpa [runOps, applyOp] using h2
        · intro a ha
          exact hmono a (List.mem_cons_of_mem _ ha)
        · intro p hp hpa
          simp only [runOps, applyOp, List.mem_cons] at hp
          rcases hp with hp | hp
          · subst hp; simp at hpa
          · exact h3 p hp hpa

/-- **C1.** Every `AllocateEntry(space)` call returns a nonzero entry
index contained in that space, and across any sequence of
`AllocateEntry` calls on one Space (with no intervening frees) the
returned indices are pairwise distinct and none equal 0.  Stated for
any positive segment size `E` and any number `n` of consecutive calls
on a freshly initialized space. -/
theorem allocateEntry_distinct_nonzero_contained (E : Nat) (hE : 0 < E) (n : Nat) :
    (allocSeq E n initialState).1.Nodup ∧
      ∀ r ∈ (allocSeq E n initialState).1,
        r ≠ 0 ∧ contains E (allocSeq E n initialState).2 r := by
  obtain ⟨freel', hinv⟩ := inv_allocSeq E hE n initialState [] [] (inv_initial E)
  rw [List.append_nil] at hinv
  refine ⟨List.nodup_reverse.1 hinv.nodupA, ?_⟩
  intro r hr
  have hr' : r ∈ (allocSeq E n initialState).1.reverse := List.mem_reverse.2 hr
  exact ⟨hinv.nzA r hr', hinv.segA r hr'⟩

/-- Witness for C1: segment size 2, three consecutive allocations. -/
theorem allocateEntry_distinct_nonzero_contained_witness :
    0 < 2 ∧
      ((allocSeq 2 3 initialState).1.Nodup ∧
        ∀ r ∈ (allocSeq 2 3 initialState).1,
          r ≠ 0 ∧ contains 2 (allocSeq 2 3 initialState).2 r) :=
  ⟨Nat.zero_lt_two, allocateEntry_distinct_nonzero_contained 2 Nat.zero_lt_two 3⟩

/-- **C2.** `AllocateEntryBelow(space, T)` never returns an index `≥ T`
on success (a nonzero return is `< T`); it returns the failure
sentinel 0 iff the freelist is empty or the freelist head's next index
is `≥ T` — only the head is checked, so entries below `T` deeper in the
freelist do not prevent failure — and it never invokes `Extend`: the
space's segment set and the segment allocator are untouched.  The
hypothesis is the freelist well-formedness fact (maintained by the
allocator, see `Inv`) that a nonempty freelist has a nonzero head. -/
theorem allocateEntryBelow_spec (s : EETState) (T : Nat)
    (hwf : s.length ≠ 0 → s.next ≠ 0) :
    ((allocateEntryBelow s T).1 ≠ 0 → (allocateEntryBelow s T).1 < T) ∧
      ((allocateEntryBelow s T).1 = 0 ↔ s.length = 0 ∨ T ≤ s.next) ∧
      (allocateEntryBelow s T).2.segments = s.segments ∧
      (allocateEntryBelow s T).2.nextSegment = s.nextSegment := by
  by_cases hc : s.length = 0 ∨ T ≤ s.next
  · have h1 : allocateEntryBelow s T = (0, s) := by
      rw [allocateEntryBelow, if_pos hc]
    rw [h1]
    exact ⟨fun h => absurd rfl h, ⟨fun _ => hc, fun _ => rfl⟩, rfl, rfl⟩
  · have hc' := hc
    push_neg at hc'
    have h1 : allocateEntryBelow s T =
        (s.next, { s with next := s.entries s.next, length := s.length - 1 }) := by
      rw [allocateEntryBelow, if_neg hc]
    rw [h1]
    exact ⟨fun _ => hc'.2, ⟨fun h0 => absurd h0 (hwf hc'.1), fun h => absurd h hc⟩, rfl, rfl⟩

/-- Witness for C2 on `exampleSpaceState` (freelist `5 → 2 → 0`) with
threshold 3: entry 2 sits below the threshold deeper in the freelist,
yet the call fails with 0 because only the head (5) is checked. -/
theorem allocateEntryBelow_spec_witness :
    (exampleSpaceState.length ≠ 0 → exampleSpaceState.next ≠ 0) ∧
      exampleSpaceState.entries exampleSpaceState.next = 2 ∧ 2 < 3 ∧
      (allocateEntryBelow exampleSpaceState 3).1 = 0 ∧
      (((allocateEntryBelow exampleSpaceState 3).1 ≠ 0 →
          (allocateEntryBelow exampleSpaceState 3).1 < 3) ∧
        ((allocateEntryBelow exampleSpaceState 3).1 = 0 ↔
          exampleSpaceState.length = 0 ∨ 3 ≤ exampleSpaceState.next) ∧
        (allocateEntryBelow exampleSpaceState 3).2.segments = exampleSpaceState.segments ∧
        (allocateEntryBelow exampleSpaceState 3).2.nextSegment =
          exampleSpaceState.nextSegment) :=
  ⟨by decide, by decide, by decide, by decide,
    allocateEntryBelow_spec exampleSpaceState 3 (by decide)⟩

/-- **C3.** With the space's mutex held and its freelist empty,
`Extend(space)` allocates exactly one new segment (the fresh
`nextSegment`, prepended to the space's segment set, not previously
owned), links every entry `i` of that segment to `i + 1` except the
last entry, which is linked to 0, and publishes a new freelist head
whose next index is the segment's first entry and whose length equals
exactly `kEntriesPerSegment` (`E`). -/
theorem extend_links_one_fresh_segment (E : Nat) (hE : 0 < E) (s : EETState)
    (_hempty : s.length = 0) (hfresh : ∀ g ∈ s.segments, g < s.nextSegment) :
    (extend E s).segments = s.nextSegment :: s.segments ∧
      s.nextSegment ∉ s.segments ∧
      (∀ j, j < E - 1 →
        (extend E s).entries (segmentFirstEntry E s.nextSegment + j) =
          segmentFirstEntry E s.nextSegment + j + 1) ∧
      (extend E s).entries (segmentLastEntry E s.nextSegment) = 0 ∧
      (extend E s).next = segmentFirstEntry E s.nextSegment ∧
      (extend E s).length = E := by
  have hfl : segmentLastEntry E s.nextSegment =
      segmentFirstEntry E s.nextSegment + (E - 1) := by
    simp [segmentFirstEntry, segmentLastEntry]
  refine ⟨rfl, ?_, ?_, ?_, rfl, ?_⟩
  · intro hmem
    exact absurd (hfresh _ hmem) (by omega)
  · intro j hj
    show makeFreelistEntry
        (writeLinks s.entries (segmentFirstEntry E s.nextSegment) (E - 1))
        (segmentLastEntry E s.nextSegment) 0 _ = _
    have hne : segmentFirstEntry E s.nextSegment + j ≠ segmentLastEntry E s.nextSegment := by
      omega
    simp only [makeFreelistEntry, if_neg hne]
    exact writeLinks_at s.entries _ (E - 1) j hj
  · show makeFreelistEntry _ (segmentLastEntry E s.nextSegment) 0 _ = 0
    simp [makeFreelistEntry]
  · show segmentLastEntry E s.nextSegment - segmentFirstEntry E s.nextSegment + 1 = E
    omega

/-- Witness for C3: segment size 2 on the freshly initialized space
(`Extend` builds segment 1, entries 2 and 3, freelist `2 → 3 → 0`). -/
theorem extend_links_one_fresh_segment_witness :
    (0 < 2 ∧ initialState.length = 0 ∧
        ∀ g ∈ initialState.segments, g < initialState.nextSegment) ∧
      ((extend 2 initialState).segments = initialState.nextSegment :: initialState.segments ∧
        initialState.nextSegment ∉ initialState.segments ∧
        (∀ j, j < 2 - 1 →
          (extend 2 initialState).entries (segmentFirstEntry 2 initialState.nextSegment + j) =
            segmentFirstEntry 2 initialState.nextSegment + j + 1) ∧
        (extend 2 initialState).entries (segmentLastEntry 2 initialState.nextSegment) = 0 ∧
        (extend 2 initialState).next = segmentFirstEntry 2 initialState.nextSegment ∧
        (extend 2 initialState).length = 2) :=
  ⟨⟨Nat.zero_lt_two, rfl, by simp [initialState]⟩,
    extend_links_one_fresh_segment 2 Nat.zero_lt_two initialState rfl (by simp [initialState])⟩

/-- **C4.** Entry 0 is permanently reserved and never allocated: across
any sequence of `AllocateEntry` / `AllocateEntryBelow` operations on a
freshly initialized space, no `AllocateEntry` call returns 0; a zero
return of `AllocateEntryBelow` is the failure sentinel, allocating
nothing (the state is untouched); segment 0 — committed read-only by
`InitializeTable` to host the null entry — is never in the space's
segment set, so `TearDownSpace` never applies `FreeTableSegment` to
segment 0; and the one segment a further `Extend` would add is the
fresh `nextSegment`, which is nonzero. -/
theorem entry_zero_never_allocated (E : Nat) (hE : 0 < E) (ops : List Op) :
    (∀ p ∈ (runOps E ops initialState).1, p.1 = Op.alloc → p.2 ≠ 0) ∧
      0 ∉ tearDownSpaceSegments (runOps E ops initialState).2 ∧
      (∀ T, (allocateEntryBelow (runOps E ops initialState).2 T).1 = 0 →
        (allocateEntryBelow (runOps E ops initialState).2 T).2 =
          (runOps E ops initialState).2) ∧
      (runOps E ops initialState).2.nextSegment ≠ 0 ∧
      (extend E (runOps E ops initialState).2).segments =
        (runOps E ops initialState).2.nextSegment :: (runOps E ops initialState).2.segments := by
  obtain ⟨freel', alloc', hinv, _, h3⟩ :=
    inv_runOps E hE ops initialState [] [] (inv_initial E)
  refine ⟨?_, ?_, ?_, ?_, rfl⟩
  · intro p hp hpa
    exact hinv.nzA p.2 (h3 p hp hpa)
  · intro hmem
    exact hinv.segNZ 0 hmem rfl
  · intro T h0
    rcases inv_allocateEntryBelow E _ freel' alloc' T hinv with hfail | ⟨x, rest, hfl, hx, _⟩
    · rw [hfail]
    · exfalso
      apply hinv.nzF x (hfl ▸ List.mem_cons_self _ _)
      rw [← hx, h0]
  · exact fun h => absurd hinv.posSeg (by omega)

/-- Witness for C4: segment size 2, an allocation, a failing bounded
allocation, and another allocation. -/
theorem entry_zero_never_allocated_witness :
    0 < 2 ∧
      ((∀ p ∈ (runOps 2 [Op.alloc, Op.allocBelow 1, Op.alloc] initialState).1,
          p.1 = Op.alloc → p.2 ≠ 0) ∧
        0 ∉ tearDownSpaceSegments (runOps 2 [Op.alloc, Op.allocBelow 1, Op.alloc] initialState).2 ∧
        (∀ T, (allocateEntryBelow (runOps 2 [Op.alloc, Op.allocBelow 1, Op.alloc] initialState).2 T).1 = 0 →
          (allocateEntryBelow (runOps 2 [Op.alloc, Op.allocBelow 1, Op.alloc] initialState).2 T).2 =
            (runOps 2 [Op.alloc, Op.allocBelow 1, Op.alloc] initialState).2) ∧
        (runOps 2 [Op.alloc, Op.allocBelow 1, Op.alloc] initialState).2.nextSegment ≠ 0 ∧
        (extend 2 (runOps 2 [Op.alloc, Op.allocBelow 1, Op.alloc] initialState).2).segments =
          (runOps 2 [Op.alloc, Op.allocBelow 1, Op.alloc] initialState).2.nextSegment ::
            (runOps 2 [Op.alloc, Op.allocBelow 1, Op.alloc] initialState).2.segments) :=
  ⟨Nat.zero_lt_two,
    entry_zero_never_allocated 2 Nat.zero_lt_two [Op.alloc, Op.allocBelow 1, Op.alloc]⟩

end EET

namespace MV

/-- The quantity "pushes of `obj` so far plus 1 if `obj` is still
unmarked" is left unchanged by every `MarkObject` call: a push happens
exactly when the object's mark bit flips from unset to set. -/
theorem markObject_measure (rpm : Bool) (s : MState) (h o obj : Nat) :
    (markObject rpm s h o).worklist.count obj +
        (if obj ∈ (markObject rpm s h o).marked then 0 else 1) =
      s.worklist.count obj + (if obj ∈ s.marked then 0 else 1) := by
  by_cases hmem : o ∈ s.marked
  · simp [markObject, tryMark, hmem]
  · by_cases hobj : obj = o
    · subst hobj
      simp [markObject, tryMark, hmem, List.count_cons]
    · have h1 : obj ∈ o :: s.marked ↔ obj ∈ s.marked := by
        simp [List.mem_cons, hobj]
      simp [markObject, tryMark, hmem, List.count_cons, h1, hobj]

theorem runMarks_measure (rpm : Bool) :
    ∀ (calls : List (Nat × Nat)) (s : MState) (obj : Nat),
      (runMarks rpm calls s).worklist.count obj +
          (if obj ∈ (runMarks rpm calls s).marked then 0 else 1) =
        s.worklist.count obj + (if obj ∈ s.marked then 0 else 1) := by
  intro calls
  induction calls with
  | nil => intro s obj; rfl
  | cons c rest ih =>
    intro s obj
    simp only [runMarks]
    rw [ih (markObject rpm s c.1 c.2) obj, markObject_measure]

/-- **C5.** `MarkObject` pushes the referent onto the marking worklist
exactly when the atomic `TryMark` test-and-set reports "first to mark",
so across any sequence of `MarkObject` calls each object is pushed onto
the work queue at most once (once if it starts unmarked, not at all if
it is already marked); re-pushes exist only in the separate
descriptor-array and progress-bar paths, not here. -/
theorem markObject_pushes_iff_first_to_mark (rpm : Bool) (s : MState) (h o : Nat)
    (calls : List (Nat × Nat)) (obj : Nat) :
    ((markObject rpm s h o).worklist =
        if (tryMark s o).1 then o :: s.worklist else s.worklist) ∧
      (runMarks rpm calls s).worklist.count obj ≤
        s.worklist.count obj + (if obj ∈ s.marked then 0 else 1) := by
  constructor
  · by_cases hmem : o ∈ s.marked <;> simp [markObject, tryMark, hmem]
  · have := runMarks_measure rpm calls s obj
    omega

end MV

namespace PB

/-- Characterization of one `VisitFixedArrayWithProgressBar` call whose
observed cursor is positive and not yet complete. -/
theorem step_pos (S chunk kSO cursor : Nat) (h0 : 0 < cursor) (hS : cursor < S)
    (hchunk : 0 < chunk) :
    (step S chunk kSO cursor).headerVisited = false ∧
      (step S chunk kSO cursor).slotStart = cursor ∧
      (step S chunk kSO cursor).slotEnd = min S (cursor + chunk) ∧
      (step S chunk kSO cursor).newCursor = min S (cursor + chunk) ∧
      ((step S chunk kSO cursor).repushed = true ↔ min S (cursor + chunk) < S) := by
  have hne : ¬(cursor = 0) := by omega
  have hlt : cursor < min S (cursor + chunk) := by omega
  refine ⟨?_, ?_, ?_, ?_, ?_⟩ <;> simp [step, trySetNewValue, hne, hlt]

/-- Characterization of one `VisitFixedArrayWithProgressBar` call whose
observed cursor is 0: the map pointer (header) is visited, and the slot
scan starts at `kStartOffset`, not at 0. -/
theorem step_zero (S chunk kSO : Nat) (_hkSO : 0 < kSO) (hS : kSO ≤ S) (hchunk : 0 < chunk) :
    (step S chunk kSO 0).headerVisited = true ∧
      (step S chunk kSO 0).slotStart = kSO ∧
      (step S chunk kSO 0).slotEnd = min S (kSO + chunk) ∧
      (step S chunk kSO 0).newCursor = (if kSO < S then min S (kSO + chunk) else 0) ∧
      ((step S chunk kSO 0).repushed = true ↔ kSO < S ∧ min S (kSO + chunk) < S) := by
  by_cases hlt : kSO < S
  · have hlt' : kSO < min S (kSO + chunk) := by omega
    refine ⟨?_, ?_, ?_, ?_, ?_⟩ <;> simp [step, trySetNewValue, hlt, hlt']
  · have heq : kSO = S := by omega
    have hmin : min S (kSO + chunk) = S := by omega
    have hlt' : ¬(kSO < min S (kSO + chunk)) := by omega
    refine ⟨?_, ?_, ?_, ?_, ?_⟩ <;> simp [step, trySetNewValue, hlt, hlt', hmin] <;> omega

/-- The progress-bar cursor never exceeds the array size. -/
theorem step_newCursor_le (S chunk kSO cursor : Nat) (h : cursor ≤ S) :
    (step S chunk kSO cursor).newCursor ≤ S := by
  simp only [step, trySetNewValue]
  by_cases h1 : (if cursor = 0 then kSO else cursor) < min S ((if cursor = 0 then kSO else cursor) + chunk) <;>
    simp [h1] <;> omega

/-- The array is re-pushed onto the marking worklist exactly when a
nonempty slot range was visited and the updated cursor is still below
the array size. -/
theorem step_repush_iff (S chunk kSO cursor : Nat) :
    (step S chunk kSO cursor).repushed = true ↔
      (step S chunk kSO cursor).slotStart < (step S chunk kSO cursor).slotEnd ∧
        (step S chunk kSO cursor).newCursor < S := by
  simp only [step, trySetNewValue]
  by_cases h1 : (if cursor = 0 then kSO else cursor) < min S ((if cursor = 0 then kSO else cursor) + chunk) <;>
    simp [h1] <;> omega

/-- The tail of the incremental run, from a positive cursor, tiles
`[cursor, S)`. -/
theorem run_tiles_of_pos (S chunk kSO : Nat) (hchunk : 0 < chunk) :
    ∀ (fuel cursor : Nat), 0 < cursor → cursor < S → S ≤ cursor + fuel →
      Tiles S cursor (run S chunk kSO fuel cursor) := by
  intro fuel
  induction fuel with
  | zero => intro cursor _ _ _; omega
  | succ fuel ih =>
    intro cursor h0 hS hfuel
    obtain ⟨hh, hs1, hs2, hnc, hrp⟩ := step_pos S chunk kSO cursor h0 hS hchunk
    have hlt : cursor < min S (cursor + chunk) := by omega
    simp only [run, stepRanges, hh, hs1, hs2, hnc]
    rw [if_neg (by simp), if_pos hlt]
    by_cases hend : min S (cursor + chunk) < S
    · rw [if_pos (hrp.2 hend)]
      refine ⟨rfl, hlt, ?_⟩
      exact ih (min S (cursor + chunk)) (by omega) hend (by omega)
    · have heq : min S (cursor + chunk) = S := by omega
      rw [if_neg (by simp [hrp, hend])]
      exact ⟨rfl, hlt, by simp [Tiles, heq]⟩

/-- The full incremental run from cursor 0 tiles `[0, S)`: the union of
the visited byte ranges (the header `[0, kStartOffset)` from the
map-pointer visit, then the chunked slot ranges) is exactly `[0, S)`,
with no overlap and no gaps. -/
theorem run_tiles_from_zero (S chunk kSO fuel : Nat) (hkSO : 0 < kSO) (hS : kSO ≤ S)
    (hchunk : 0 < chunk) (hfuel : S ≤ fuel) :
    Tiles S 0 (run S chunk kSO fuel 0) := by
  obtain ⟨fuel', rfl⟩ : ∃ f, fuel = f + 1 := ⟨fuel - 1, by omega⟩
  obtain ⟨hh, hs1, hs2, hnc, hrp⟩ := step_zero S chunk kSO hkSO hS hchunk
  by_cases hlt : kSO < S
  · have hlt' : kSO < min S (kSO + chunk) := by omega
    rw [if_pos hlt] at hnc
    simp only [run, stepRanges, hh, hs1, hs2, hnc, if_true, List.cons_append,
      List.nil_append]
    rw [if_pos hlt']
    by_cases hend : min S (kSO + chunk) < S
    · rw [if_pos (hrp.2 ⟨hlt, hend⟩)]
      refine ⟨rfl, hkSO, rfl, hlt', ?_⟩
      exact run_tiles_of_pos S chunk kSO hchunk fuel' (min S (kSO + chunk)) (by omega) hend
        (by omega)
    · have heq : min S (kSO + chunk) = S := by omega
      rw [if_neg (by simp [hrp, hend])]
      exact ⟨rfl, hkSO, rfl, hlt', by simp [Tiles, heq]⟩
  · have heq : kSO = S := by omega
    have hnoslot : ¬((step S chunk kSO 0).slotStart < (step S chunk kSO 0).slotEnd) := by
      rw [hs1, hs2]; omega
    have hnorp : ¬((step S chunk kSO 0).repushed = true) := by
      simp [hrp, hlt]
    simp only [run, stepRanges, hh, if_true]
    rw [if_neg hnoslot, if_neg hnorp]
    exact ⟨rfl, hkSO, heq⟩

/-- **C6, counterexample to the claim as stated.** For an array of size
`S = 100` with chunk 16, header offset `kStartOffset = 8` and observed
cursor `start = 0`, the claim predicts the visited slot range
`[start, min(S, start + chunk)) = [0, 16)`; the code adjusts a zero
cursor to `kStartOffset` and hands `VisitPointers` the range `[8, 24)`
instead. -/
theorem visitFixedArrayWithProgressBar_zero_start_counterexample :
    (step 100 16 8 0).slotStart = 8 ∧ (step 100 16 8 0).slotEnd = 24 ∧
      ¬((step 100 16 8 0).slotStart = 0 ∧
        (step 100 16 8 0).slotEnd = min 100 (0 + 16)) := by
  decide

/-- **C6 (amended).** For a `FixedArray` of size `S` visited with a
progress bar whose observed cursor is `start`:
* when `0 < start < S` the call visits exactly the slot range
  `[start, min(S, start + chunk))` and does not revisit the header;
* when `start = 0` the call visits the header (map pointer) — the bytes
  `[0, kStartOffset)` — and the slot range
  `[kStartOffset, min(S, kStartOffset + chunk))`;
* the cursor is updated by the `TrySetNewValue` compare-and-swap from
  the previously observed value, never a blind store (a CAS against a
  changed cell fails and leaves it untouched);
* the cursor stays bounded by `S`;
* the array is re-pushed onto the marking worklist exactly when a
  nonempty slot range was visited and the new cursor is still below `S`;
* the union of the visited byte ranges over all increments is exactly
  `[0, S)`, consecutive, with no overlap and no gaps. -/
theorem visitFixedArrayWithProgressBar_spec (S chunk kSO : Nat)
    (hkSO : 0 < kSO) (hS : kSO ≤ S) (hchunk : 0 < chunk) :
    (∀ cursor, 0 < cursor → cursor < S →
        (step S chunk kSO cursor).headerVisited = false ∧
          (step S chunk kSO cursor).slotStart = cursor ∧
          (step S chunk kSO cursor).slotEnd = min S (cursor + chunk)) ∧
      ((step S chunk kSO 0).headerVisited = true ∧
        (step S chunk kSO 0).slotStart = kSO ∧
        (step S chunk kSO 0).slotEnd = min S (kSO + chunk)) ∧
      (∀ cell expected v, cell ≠ expected →
        trySetNewValue cell expected v = (false, cell)) ∧
      (∀ cursor, cursor ≤ S → (step S chunk kSO cursor).newCursor ≤ S) ∧
      (∀ cursor, (step S chunk kSO cursor).repushed = true ↔
        (step S chunk kSO cursor).slotStart < (step S chunk kSO cursor).slotEnd ∧
          (step S chunk kSO cursor).newCursor < S) ∧
      (∀ fuel, S ≤ fuel → Tiles S 0 (run S chunk kSO fuel 0)) := by
  refine ⟨?_, ?_, ?_, ?_, ?_, ?_⟩
  · intro cursor h0 hSc
    obtain ⟨h1, h2, h3, _, _⟩ := step_pos S chunk kSO cursor h0 hSc hchunk
    exact ⟨h1, h2, h3⟩
  · obtain ⟨h1, h2, h3, _, _⟩ := step_zero S chunk kSO hkSO hS hchunk
    exact ⟨h1, h2, h3⟩
  · intro cell expected v h
    simp [trySetNewValue, h]
  · intro cursor h
    exact step_newCursor_le S chunk kSO cursor h
  · intro cursor
    exact step_repush_iff S chunk kSO cursor
  · intro fuel hfuel
    exact run_tiles_from_zero S chunk kSO fuel hkSO hS hchunk hfuel

/-- Witness for the amended C6 at `S = 100`, chunk 16,
`kStartOffset = 8`. -/
theorem visitFixedArrayWithProgressBar_spec_witness :
    (0 < 8 ∧ 8 ≤ 100 ∧ 0 < 16) ∧
      ((∀ cursor, 0 < cursor → cursor < 100 →
          (step 100 16 8 cursor).headerVisited = false ∧
            (step 100 16 8 cursor).slotStart = cursor ∧
            (step 100 16 8 cursor).slotEnd = min 100 (cursor + 16)) ∧
        ((step 100 16 8 0).headerVisited = true ∧
          (step 100 16 8 0).slotStart = 8 ∧
          (step 100 16 8 0).slotEnd = min 100 (8 + 16)) ∧
        (∀ cell expected v, cell ≠ expected →
          trySetNewValue cell expected v = (false, cell)) ∧
        (∀ cursor, cursor ≤ 100 → (step 100 16 8 cursor).newCursor ≤ 100) ∧
        (∀ cursor, (step 100 16 8 cursor).repushed = true ↔
          (step 100 16 8 cursor).slotStart < (step 100 16 8 cursor).slotEnd ∧
            (step 100 16 8 cursor).newCursor < 100) ∧
        (∀ fuel, 100 ≤ fuel → Tiles 100 0 (run 100 16 8 fuel 0))) :=
  ⟨⟨by decide, by decide, by decide⟩,
    visitFixedArrayWithProgressBar_spec 100 16 8 (by decide) (by decide) (by decide)⟩

end PB

namespace EPH

theorem mem_visitEntries (ro mk sm : Nat → Bool) :
    ∀ (tbl : List (Nat × Obj)) (j : Nat) (e : Ev),
      e ∈ visitEntries ro mk sm j tbl ↔
        ∃ i k v, tbl.get? i = some (k, v) ∧ e ∈ entryEvents ro mk sm (j + i) k v := by
  intro tbl
  induction tbl with
  | nil => intro j e; simp [visitEntries]
  | cons p rest ih =>
    intro j e
    obtain ⟨k, v⟩ := p
    simp only [visitEntries, List.mem_append, ih (j + 1)]
    constructor
    · rintro (he | ⟨i, k', v', hget, hmem⟩)
      · exact ⟨0, k, v, rfl, by simpa using he⟩
      · refine ⟨i + 1, k', v', by simpa using hget, ?_⟩
        have : j + 1 + i = j + (i + 1) := by omega
        rwa [this] at hmem
    · rintro ⟨i, k', v', hget, hmem⟩
      cases i with
      | zero =>
        left
        simp only [List.get?] at hget
        injection hget with h
        injection h with h1 h2
        subst h1
        subst h2
        simpa using hmem
      | succ i =>
        right
        refine ⟨i, k', v', by simpa using hget, ?_⟩
        have : j + 1 + i = j + (i + 1) := by omega
        rwa [← this] at hmem

theorem visitValueStrong_mem_entryEvents (ro mk sm : Nat → Bool) (i' k : Nat) (v : Obj)
    (i : Nat) (he : Ev.visitValueStrong i ∈ entryEvents ro mk sm i' k v) :
    i = i' ∧ (ro k || mk k) = true := by
  by_cases h1 : (ro k || mk k) = true
  · refine ⟨?_, h1⟩
    unfold entryEvents at he
    rw [if_pos h1] at he
    simpa using he
  · exfalso
    cases v with
    | heap vid => simp [entryEvents, h1] at he
    | nonheap => simp [entryEvents, h1] at he

theorem pushTable_not_mem_visitEntries (ro mk sm : Nat → Bool) :
    ∀ (tbl : List (Nat × Obj)) (j : Nat), Ev.pushTable ∉ visitEntries ro mk sm j tbl := by
  intro tbl
  induction tbl with
  | nil => intro j; simp [visitEntries]
  | cons p rest ih =>
    intro j
    obtain ⟨k, v⟩ := p
    simp only [visitEntries, List.mem_append, not_or]
    refine ⟨?_, ih (j + 1)⟩
    cases v with
    | heap vid =>
      by_cases h1 : (ro k || mk k) = true <;>
        by_cases h2 : sm vid = true <;> by_cases h3 : mk vid = true <;>
          simp [entryEvents, h1, h2, h3]
    | nonheap =>
      by_cases h1 : (ro k || mk k) = true <;> simp [entryEvents, h1]

/-- **C9.** `VisitEphemeronHashTable` pushes the table itself onto the
ephemeron-hash-tables worklist unconditionally — for every marking
state and every table, including one whose keys and values are all
dead — exactly once per invocation, and as the very first action,
before any entry is examined. -/
theorem visitEphemeronHashTable_pushes_table_first (ro mk sm : Nat → Bool)
    (tbl : List (Nat × Obj)) :
    (visitEphemeronHashTable ro mk sm tbl).head? = some Ev.pushTable ∧
      (visitEphemeronHashTable ro mk sm tbl).count Ev.pushTable = 1 := by
  refine ⟨rfl, ?_⟩
  show (Ev.pushTable :: visitEntries ro mk sm 0 tbl).count Ev.pushTable = 1
  rw [List.count_cons_self]
  rw [List.count_eq_zero.2 (pushTable_not_mem_visitEntries ro mk sm tbl 0)]

/-- **C7.** For every entry `(k, v)` of an ephemeron hash table,
`VisitEphemeronHashTable` records the key slot; if the key is in
read-only (permanent) storage or already marked it visits the value
slot strongly; otherwise it records the value slot as a potential
reference (when the value is a heap object) without visiting the value
strongly, and pushes the `(key, value)` pair onto the
discovered-ephemerons worklist exactly when the value is a heap object
that should be marked and is still unmarked. -/
theorem visitEphemeronHashTable_entry_spec (ro mk sm : Nat → Bool)
    (tbl : List (Nat × Obj)) (i k : Nat) (v : Obj) (hget : tbl.get? i = some (k, v)) :
    Ev.recordKey i k ∈ visitEphemeronHashTable ro mk sm tbl ∧
      ((ro k || mk k) = true →
        Ev.visitValueStrong i ∈ visitEphemeronHashTable ro mk sm tbl) ∧
      ((ro k || mk k) = false →
        Ev.visitValueStrong i ∉ visitEphemeronHashTable ro mk sm tbl ∧
          ∀ vid, v = Obj.heap vid →
            Ev.recordValue i vid ∈ visitEphemeronHashTable ro mk sm tbl ∧
              (Ev.pushEphemeron k vid ∈ entryEvents ro mk sm i k v ↔
                sm vid = true ∧ mk vid = false)) := by
  have hlift : ∀ e, e ∈ entryEvents ro mk sm i k v →
      e ∈ visitEphemeronHashTable ro mk sm tbl := by
    intro e he
    show e ∈ Ev.pushTable :: visitEntries ro mk sm 0 tbl
    refine List.mem_cons_of_mem _ ?_
    rw [mem_visitEntries]
    exact ⟨i, k, v, hget, by simpa using he⟩
  refine ⟨?_, ?_, ?_⟩
  · exact hlift _ (List.mem_cons_self _ _)
  · intro h1
    apply hlift
    cases v <;> simp [entryEvents, h1]
  · intro h1
    refine ⟨?_, ?_⟩
    · intro hmem
      rcases List.mem_cons.1 hmem with hmem | hmem
      · exact absurd hmem (by simp)
      · rw [mem_visitEntries] at hmem
        obtain ⟨i', k', v', hget', hmem'⟩ := hmem
        rw [Nat.zero_add] at hmem'
        obtain ⟨rfl, hro⟩ := visitValueStrong_mem_entryEvents ro mk sm i' k' v' i hmem'
        rw [hget] at hget'
        injection hget' with hp
        obtain ⟨rfl, rfl⟩ : k = k' ∧ v = v' := ⟨congrArg Prod.fst hp, congrArg Prod.snd hp⟩
        rw [h1] at hro
        exact absurd hro (by simp)
    · rintro vid rfl
      refine ⟨?_, ?_⟩
      · apply hlift
        simp [entryEvents, h1]
      · constructor
        · intro hmem
          by_cases h2 : sm vid = true <;> by_cases h3 : mk vid = true <;>
            simp [entryEvents, h1, h2, h3] at hmem ⊢ <;> simp [h2, h3]
        · rintro ⟨h2, h3⟩
          simp [entryEvents, h1, h2, h3]

/-- Witness for C7: in `exampleTable`, entry 1 has the unmarked key 2
and the unmarked heap value 20, so the value slot is recorded, not
visited strongly, and the ephemeron pair `(2, 20)` is pushed. -/
theorem visitEphemeronHashTable_entry_spec_witness :
    exampleTable.get? 1 = some (2, Obj.heap 20) ∧
      (Ev.recordKey 1 2 ∈
          visitEphemeronHashTable exampleRo exampleMarked exampleShould exampleTable ∧
        ((exampleRo 2 || exampleMarked 2) = true →
          Ev.visitValueStrong 1 ∈
            visitEphemeronHashTable exampleRo exampleMarked exampleShould exampleTable) ∧
        ((exampleRo 2 || exampleMarked 2) = false →
          Ev.visitValueStrong 1 ∉
              visitEphemeronHashTable exampleRo exampleMarked exampleShould exampleTable ∧
            ∀ vid, Obj.heap 20 = Obj.heap vid →
              Ev.recordValue 1 vid ∈
                  visitEphemeronHashTable exampleRo exampleMarked exampleShould exampleTable ∧
                (Ev.pushEphemeron 2 vid ∈
                    entryEvents exampleRo exampleMarked exampleShould 1 2 (Obj.heap 20) ↔
                  exampleShould vid = true ∧ exampleMarked vid = false))) :=
  ⟨rfl, visitEphemeronHashTable_entry_spec exampleRo exampleMarked exampleShould
    exampleTable 1 2 (Obj.heap 20) rfl⟩

end EPH

namespace SFI

/-- **C8, counterexample to the claim as stated.** The claim has every
configured staleness policy send an age of exactly 0 to 1.  Under the
pure age-counter policy with `bytecode_old_age = 0` the guard
`age < v8_flags.bytecode_old_age` fails and age 0 stays 0, and under
the tab-visibility policy `MakeOlder` never changes the age, so age 0
stays 0 there as well. -/
theorem makeOlder_not_always_zero_to_one :
    makeOlder FlushPolicy.ageCounter 1 0 0 = 0 ∧
      makeOlder FlushPolicy.tabVisibility 1 6 0 = 0 ∧ (0 : Nat) ≠ 1 := by
  decide

/-- **C8 (amended).** Aging a `SharedFunctionInfo` is policy-dependent:
under the time-based policy `MakeOlder` runs a CAS-retry loop on the
16-bit saturating age counter with the special rule that age exactly 0
becomes 1 instead of the saturating increment (and the result stays
within 16 bits); under the pure age-counter policy the age is bumped by
a single CAS only while strictly below the configured old-age
threshold, so an age at most the threshold never exceeds it; under the
tab-visibility policy the age is not incremented at all. -/
theorem makeOlder_policy_spec (increase oldAge age : Nat) :
    makeOlder FlushPolicy.timeBased increase oldAge 0 = 1 ∧
      (age ≠ 0 → makeOlder FlushPolicy.timeBased increase oldAge age =
        min (age + increase) 65535) ∧
      makeOlder FlushPolicy.timeBased increase oldAge age ≤ 65535 ∧
      (age ≤ oldAge → makeOlder FlushPolicy.ageCounter increase oldAge age ≤ oldAge) ∧
      (age < oldAge → makeOlder FlushPolicy.ageCounter increase oldAge age = age + 1) ∧
      makeOlder FlushPolicy.tabVisibility increase oldAge age = age := by
  refine ⟨rfl, ?_, ?_, ?_, ?_, rfl⟩
  · intro h
    simp [makeOlder, h, saturateAdd16]
  · by_cases h : age = 0 <;> simp [makeOlder, h, saturateAdd16] <;> omega
  · intro h
    by_cases h2 : age < oldAge <;> simp [makeOlder, h2] <;> omega
  · intro h
    simp [makeOlder, h]

/-- Witness for the amended C8 at increment 7, threshold 2, age 1. -/
theorem makeOlder_policy_spec_witness :
    makeOlder FlushPolicy.timeBased 7 2 0 = 1 ∧
      ((1 : Nat) ≠ 0 → makeOlder FlushPolicy.timeBased 7 2 1 = min (1 + 7) 65535) ∧
      makeOlder FlushPolicy.timeBased 7 2 1 ≤ 65535 ∧
      ((1 : Nat) ≤ 2 → makeOlder FlushPolicy.ageCounter 7 2 1 ≤ 2) ∧
      ((1 : Nat) < 2 → makeOlder FlushPolicy.ageCounter 7 2 1 = 1 + 1) ∧
      makeOlder FlushPolicy.tabVisibility 7 2 1 = 1 :=
  makeOlder_policy_spec 7 2 1

end SFI

namespace WR

/-- **C10.** If the `JSObject`-subclass visitation of a `JSWeakRef`
returns size 0, `VisitJSWeakRef` returns 0 without inspecting the weak
target — no slot is recorded and nothing is pushed onto the
js-weak-refs worklist; any weak-target handling (recording the target
slot when the target is read-only or marked, pushing the weak ref
otherwise) happens only when the subclass visit reports a nonzero size
and the target is a heap object. -/
theorem visitJSWeakRef_spec (ro mk : Nat → Bool) (size : Nat) (target : EPH.Obj) :
    visitJSWeakRef ro mk 0 target =
        { ret := 0, recordedTargets := [], pushedWeakRef := false } ∧
      ((visitJSWeakRef ro mk size target).recordedTargets ≠ [] ∨
          (visitJSWeakRef ro mk size target).pushedWeakRef = true →
        size ≠ 0 ∧ ∃ t, target = EPH.Obj.heap t) ∧
      (∀ t, target = EPH.Obj.heap t → size ≠ 0 →
        (visitJSWeakRef ro mk size target).ret = size ∧
          ((ro t || mk t) = true →
            (visitJSWeakRef ro mk size target).recordedTargets = [t] ∧
              (visitJSWeakRef ro mk size target).pushedWeakRef = false) ∧
          ((ro t || mk t) = false →
            (visitJSWeakRef ro mk size target).recordedTargets = [] ∧
              (visitJSWeakRef ro mk size target).pushedWeakRef = true)) := by
  refine ⟨by simp [visitJSWeakRef], ?_, ?_⟩
  · intro h
    by_cases hs : size = 0
    · subst hs
      simp [visitJSWeakRef] at h
    · refine ⟨hs, ?_⟩
      cases target with
      | heap t => exact ⟨t, rfl⟩
      | nonheap => simp [visitJSWeakRef, hs] at h
  · rintro t rfl hs
    by_cases h1 : (ro t || mk t) = true <;>
      exact ⟨by simp [visitJSWeakRef, hs, h1], fun h2 => by simp [visitJSWeakRef, hs, h2],
        fun h2 => by simp [visitJSWeakRef, hs, h2]⟩

/-- Witness for C10: a weak ref with heap target 4, neither read-only
nor marked, under subclass size 0 and subclass size 5. -/
theorem visitJSWeakRef_spec_witness :
    visitJSWeakRef EPH.exampleRo EPH.exampleMarked 0 (EPH.Obj.heap 4) =
        { ret := 0, recordedTargets := [], pushedWeakRef := false } ∧
      ((visitJSWeakRef EPH.exampleRo EPH.exampleMarked 5 (EPH.Obj.heap 4)).recordedTargets ≠ [] ∨
          (visitJSWeakRef EPH.exampleRo EPH.exampleMarked 5 (EPH.Obj.heap 4)).pushedWeakRef = true →
        (5 : Nat) ≠ 0 ∧ ∃ t, EPH.Obj.heap 4 = EPH.Obj.heap t) ∧
      (∀ t, EPH.Obj.heap 4 = EPH.Obj.heap t → (5 : Nat) ≠ 0 →
        (visitJSWeakRef EPH.exampleRo EPH.exampleMarked 5 (EPH.Obj.heap 4)).ret = 5 ∧
          ((EPH.exampleRo t || EPH.exampleMarked t) = true →
            (visitJSWeakRef EPH.exampleRo EPH.exampleMarked 5 (EPH.Obj.heap 4)).recordedTargets = [t] ∧
              (visitJSWeakRef EPH.exampleRo EPH.exampleMarked 5 (EPH.Obj.heap 4)).pushedWeakRef = false) ∧
          ((EPH.exampleRo t || EPH.exampleMarked t) = false →
            (visitJSWeakRef EPH.exampleRo EPH.exampleMarked 5 (EPH.Obj.heap 4)).recordedTargets = [] ∧
              (visitJSWeakRef EPH.exampleRo EPH.exampleMarked 5 (EPH.Obj.heap 4)).pushedWeakRef = true)) :=
  visitJSWeakRef_spec EPH.exampleRo EPH.exampleMarked 5 (EPH.Obj.heap 4)

end WR
